import Mathlib

/-!
Verification development for the Mimic3 TTS plugin
(`ovos_tts_plugin_mimic3/__init__.py`).

The plugin code is shallowly embedded: Python strings become `List Char`,
the mutable engine handle becomes an explicit state record, the `wave`
container becomes a record of optional format parameters plus an
accumulated frame byte list, and the exception-based control flow of
`get_tts` / `_mimic3_synth` becomes `Except`-valued functions.  The
`threading.Lock` discipline of `get_tts` is embedded as a small labelled
transition system.
-/

namespace Mimic3

/-- Python strings are modelled as lists of characters. -/
abbrev LC := List Char

/-- The single-quote character (codepoint 39), used by the quoted-letter
regex `'([A-Z])'` in `_apply_text_hacks`. -/
def quoteChar : Char := Char.ofNat 39

/-- Characters stripped by Python's `str.strip()` (ASCII whitespace). -/
def pyIsSpace (c : Char) : Bool :=
  c = ' ' || c = '\t' || c = '\n' || c = '\r' || c = '\x0b' || c = '\x0c'

/-- The character class `[A-Z]` used by the regexes in `_apply_text_hacks`. -/
def isUpperAZ (c : Char) : Bool :=
  'A' ≤ c && c ≤ 'Z'

/-- Word characters for the `\b` boundary of the acronym regex
(`\w` restricted to ASCII). -/
def isWordChar (c : Char) : Bool :=
  isUpperAZ c || ('a' ≤ c && c ≤ 'z') || ('0' ≤ c && c ≤ '9') || c = '_'

/-- `matchesAt p s`: the pattern `p` is a prefix of `s` (literal match). -/
def matchesAt : List Char → List Char → Bool
  | [], _ => true
  | _ :: _, [] => false
  | p :: ps, c :: cs => p == c && matchesAt ps cs

/-- Scanner for Python `str.replace(pat, rep)` with non-empty pattern
`p0 :: pt`: replace non-overlapping occurrences left to right.  After a
replaced occurrence, scanning resumes past it in the original string;
the `skip` counter walks over the remaining `pt.length` matched
characters without emitting them. -/
def pyReplaceGo (p0 : Char) (pt rep : List Char) : Nat → List Char → List Char
  | _ + 1, [] => []
  | skip + 1, _ :: rest => pyReplaceGo p0 pt rep skip rest
  | 0, [] => []
  | 0, c :: rest =>
    if c == p0 && matchesAt pt rest then
      rep ++ pyReplaceGo p0 pt rep pt.length rest
    else
      c :: pyReplaceGo p0 pt rep 0 rest

/-- Python `str.replace(pat, rep)` for the pattern `p0 :: pt`. -/
def pyReplace (p0 : Char) (pt rep s : List Char) : List Char :=
  pyReplaceGo p0 pt rep 0 s

/-- `sentence.replace(" a.m.", " a.m. ")` from `_apply_text_hacks`. -/
def amFix (s : LC) : LC := pyReplace ' ' ("a.m.".data) (" a.m. ".data) s

/-- `sentence.replace(" p.m.", " p.m. ")` from `_apply_text_hacks`. -/
def pmFix (s : LC) : LC := pyReplace ' ' ("p.m.".data) (" p.m. ".data) s

/-- `str.strip()`: remove leading and trailing Python whitespace. -/
def pyStrip (s : LC) : LC :=
  (((s.dropWhile pyIsSpace).reverse).dropWhile pyIsSpace).reverse

/-- `startsWithChar c s`: `s` is non-empty and begins with `c`
(models `str.startswith` for a one-character prefix). -/
def startsWithChar (c : Char) : LC → Bool
  | [] => false
  | x :: _ => x == c

/-- Greedy run of the repeated group `[A-Z](?: |$)` of the acronym regex
`\b([A-Z](?: |$)){2,}`: starting at the head of the input, collect the
maximal sequence of repetitions (an uppercase letter followed by a space,
or an uppercase letter at the end of the string — `$` also matches just
before a single final newline).  Returns the letters of the run and the
remaining input after the consumed text; a failed first repetition
consumes nothing. -/
def acroRun : List Char → List Char × List Char
  | [] => ([], [])
  | [c] => if isUpperAZ c then ([c], []) else ([], [c])
  | c :: d :: rest =>
    if isUpperAZ c then
      if d = ' ' then
        let r := acroRun rest
        (c :: r.1, r.2)
      else if d = '\n' ∧ rest = [] then ([c], [d])
      else ([], c :: d :: rest)
    else ([], c :: d :: rest)

/-- The replacement `m.group(0).strip().replace(" ", ".") + ". "` of the
acronym regex, computed from the letters of the matched run: the letters
joined by periods, plus a trailing period and space. -/
def acroRepl : List Char → List Char
  | [] => ['.', ' ']
  | [c] => [c, '.', ' ']
  | c :: rest => c :: '.' :: acroRepl rest

/-- Head of a successful run: the first letter is the head of the input. -/
theorem acroRun_fst_head {c : Char} {rest : List Char}
    (h : (acroRun (c :: rest)).1 ≠ []) :
    ∃ t, (acroRun (c :: rest)).1 = c :: t := by
  match rest with
  | [] =>
    by_cases hu : isUpperAZ c
    · exact ⟨[], by simp [acroRun, hu]⟩
    · simp [acroRun, hu] at h
  | d :: rest2 =>
    by_cases hu : isUpperAZ c
    · by_cases hd : d = ' '
      · exact ⟨(acroRun rest2).1, by simp [acroRun, hu, hd]⟩
      · by_cases hend : d = '\n' ∧ rest2 = []
        · exact ⟨[], by simp [acroRun, hu, hd, hend]⟩
        · simp [acroRun, hu, hd, hend] at h
    · simp [acroRun, hu] at h

/-- The scanner of `re.sub(r"\b([A-Z](?: |$)){2,}", ..., sentence)`: walk
the string left to right; at a position satisfying the word boundary `\b`
(tracked by `prevW`, whether the previous character is a word character),
attempt the greedy run; if it has at least two repetitions, emit the
dotted replacement and resume after the consumed text (the `skip`
counter walks over the already-consumed characters, keeping the
word-boundary tracking in step with the original string), otherwise emit
the current character. -/
def acroScanGo : Nat → Bool → List Char → List Char
  | _ + 1, _, [] => []
  | skip + 1, _, c :: rest => acroScanGo skip (isWordChar c) rest
  | 0, _, [] => []
  | 0, prevW, c :: rest =>
    if (!prevW && isUpperAZ c) && decide (2 ≤ (acroRun (c :: rest)).1.length) then
      acroRepl (acroRun (c :: rest)).1 ++
        acroScanGo (rest.length - (acroRun (c :: rest)).2.length) false rest
    else
      c :: acroScanGo 0 (isWordChar c) rest

/-- `re.sub(r"\b([A-Z](?: |$)){2,}", ..., s)`: the scan starts at a word
boundary (start of string). -/
def acroScan (s : List Char) : List Char := acroScanGo 0 false s

/-- The SSML directive `<say-as interpret-as="spell-out">{c}</say-as>`
produced by `_apply_text_hacks` for a single letter `c`. -/
def ssmlSpell (c : Char) : LC :=
  "<say-as interpret-as=\"spell-out\">".data ++ [c] ++ "</say-as>".data

/-- `re.subn(r"'([A-Z])'", r'<say-as ...>\1</say-as>', sentence)`:
replace every single uppercase letter enclosed in single quotes,
left to right and non-overlapping; returns the new text and the number
of substitutions made. -/
def spellSub : List Char → List Char × Nat
  | q1 :: c :: q2 :: rest =>
    if q1 == quoteChar && isUpperAZ c && q2 == quoteChar then
      let r := spellSub rest
      (ssmlSpell c ++ r.1, r.2 + 1)
    else
      let r := spellSub (c :: q2 :: rest)
      (q1 :: r.1, r.2)
  | s => (s, 0)

/-- The two-character special case of `_apply_text_hacks`:
`len(sentence) == 2 and sentence.endswith(";")`. -/
abbrev twoCharCase (t : LC) : Prop := t.length = 2 ∧ t.getLast? = some ';'

/-- The text after the `" a.m."` / `" p.m."` fixes and the acronym
collapse, i.e. the value of `sentence` at the point where
`_apply_text_hacks` computes the `ssml` flag. -/
def preText (s : LC) : LC := acroScan (pmFix (amFix s))

/-- `Mimic3TTSPlugin._apply_text_hacks`: returns the transformed sentence
and the `ssml` flag. -/
def applyTextHacks (s : LC) : LC × Bool :=
  let s3 := preText s
  let ssml := startsWithChar '<' (pyStrip s3)
  if twoCharCase s3 then
    (ssmlSpell (s3.headD ' '), true)
  else
    ((spellSub s3).1, ssml || decide (0 < (spellSub s3).2))

/-! ### Voice directory and synthesis orchestration (`Mimic3TTSPlugin`) -/

/-- First-match lookup in an association list (Python `dict` access /
`dict.get`; keys in the modelled tables are distinct). -/
def lookupAssoc (t : List (LC × LC)) (k : LC) : Option LC :=
  match t with
  | [] => none
  | (k', v) :: rest => if k' = k then some v else lookupAssoc rest k

/-- Python `dict` item assignment `d[k] = v`: overwrite the value of an
existing key in place, otherwise append the new binding. -/
def setAssoc (t : List (LC × LC)) (k v : LC) : List (LC × LC) :=
  match t with
  | [] => [(k, v)]
  | (k', v') :: rest => if k' = k then (k, v) :: rest else (k', v') :: setAssoc rest k v

/-- The class-level `Mimic3TTSPlugin.default_voices` table, in source
order. -/
def defaultVoicesInit : List (LC × LC) :=
  [ ("en".data, "en_US/cmu-arctic_low".data)
  , ("en-uk".data, "en_UK/apope_low".data)
  , ("en-gb".data, "en_UK/apope_low".data)
  , ("de".data, "de_DE/thorsten_low".data)
  , ("bn".data, "bn/multi_low".data)
  , ("af".data, "af_ZA/google-nwu_low".data)
  , ("es".data, "es_ES/m-ailabs_low".data)
  , ("fa".data, "fa/haaniye_low".data)
  , ("fi".data, "fi_FI/harri-tapani-ylilammi_low".data)
  , ("fr".data, "fr_FR/m-ailabs_low".data)
  , ("it".data, "it_IT/mls_low".data)
  , ("ko".data, "ko_KO/kss_low".data)
  , ("nl".data, "nl/bart-de-leeuw_low".data)
  , ("pl".data, "pl_PL/m-ailabs_low".data)
  , ("ru".data, "ru_RU/multi_low".data)
  , ("uk".data, "uk_UK/m-ailabs_low".data) ]

/-- Python truthiness of an optional string: `None` and `""` are falsy. -/
def truthy : Option LC → Bool
  | none => false
  | some s => !s.isEmpty

/-- `lang.split("-")[0]`: the primary subtag. -/
def primaryTag (l : LC) : LC := l.takeWhile (fun c => c ≠ '-')

/-- The voice-resolution step of `get_tts` (lines 84-90): an explicit
truthy voice override is used verbatim; otherwise a truthy language
override is looked up in the default-voice table, falling back to the
primary subtag when the exact tag is absent; a failed lookup leaves the
current voice unchanged. -/
def pickVoice (dv : List (LC × LC)) (cur : Option LC) (voice lang : Option LC) :
    Option LC :=
  if truthy voice then voice
  else
    match lang with
    | some l =>
      if l.isEmpty then cur
      else
        let l2 := if (lookupAssoc dv l).isSome then l else primaryTag l
        match lookupAssoc dv l2 with
        | some w => some w
        | none => cur
    | none => cur

/-- The mutable voice/speaker state of the shared engine handle
(`self.tts.voice`, `self.tts.speaker`). -/
structure TTSState where
  voice : Option LC
  speaker : Option LC
deriving DecidableEq, Repr

/-- `Mimic3TTSPlugin.get_tts`, as a state transformer on the engine
handle.  `render` stands for `self._mimic3_synth` (its outcome may depend
on the sentence and ssml flag); an `Except.error` models a raised
exception.  The function returns the handle state at exit of the locked
block together with the propagated result.  Note the source has no
`try/finally`: the two restoring assignments (lines 101-102) execute only
when `_mimic3_synth` returns normally. -/
def getTts (dv : List (LC × LC)) (render : LC → Bool → Except Nat (List Nat))
    (sentence : LC) (lang voice speaker : Option LC) (st : TTSState) :
    TTSState × Except Nat (List Nat) :=
  let defSpeaker := st.speaker
  let defVoice := st.voice
  let st1 : TTSState := { st with voice := pickVoice dv st.voice voice lang }
  let st2 : TTSState := if truthy speaker then { st1 with speaker := speaker } else st1
  let r := applyTextHacks sentence
  match render r.1 r.2 with
  | .error e => (st2, .error e)
  | .ok wav => ({ st2 with voice := defVoice, speaker := defSpeaker }, .ok wav)

/-- The class-level state shared by every `Mimic3TTSPlugin` instance:
the `default_voices` class attribute. -/
structure PluginClass where
  default_voices : List (LC × LC)
deriving DecidableEq, Repr

/-- The per-instance state produced by `__init__` (the parts relevant to
voice selection). -/
structure PluginInstance where
  lang : LC
  ttsVoice : Option LC
deriving DecidableEq, Repr

/-- `Mimic3TTSPlugin.__init__`: resolves the effective language
(`config.get("language") or self.lang`), builds the engine with the
configured voice, and — when a truthy default voice is configured —
executes `self.default_voices[self.lang] = default_voice`, an in-place
item assignment on the class-level dictionary (no instance copy is made).
Voice preloading has no effect on the modelled state and is omitted. -/
def initPlugin (cls : PluginClass) (langParam : LC)
    (cfgLanguage cfgVoice : Option LC) : PluginClass × PluginInstance :=
  let lang := match cfgLanguage with
    | some l => if l.isEmpty then langParam else l
    | none => langParam
  let cls' := if truthy cfgVoice then
      { cls with default_voices :=
          setAssoc cls.default_voices lang (cfgVoice.getD []) }
    else cls
  (cls', { lang := lang, ttsVoice := cfgVoice })

/-! ### WAV assembly (`Mimic3TTSPlugin._mimic3_synth`) -/

/-- `mimic3_tts.AudioResult`: one audio segment produced by the engine. -/
structure AudioResult where
  sample_rate_hz : Nat
  sample_width_bytes : Nat
  num_channels : Nat
  audio_bytes : List Nat
deriving DecidableEq, Repr

/-- One element of the result sequence of an utterance: an audio segment
or any other (non-`AudioResult`) result, which the loop skips. -/
inductive MimicResult
  | audio (a : AudioResult)
  | other
deriving DecidableEq, Repr

/-- The in-memory `wave.Wave_write` container: optional format
parameters and the accumulated frame bytes. -/
structure WavState where
  framerate : Option Nat
  sampwidth : Option Nat
  nchannels : Option Nat
  frames : List Nat
deriving DecidableEq, Repr

/-- A freshly opened WAV container: no parameters fixed, no frames. -/
def wavInit : WavState := ⟨none, none, none, []⟩

/-- The result loop of `_mimic3_synth` (lines 163-172): `ps` is
`wav_params_set`.  An `AudioResult` fixes the container parameters on
first use and appends its bytes; any other result is skipped. -/
def runSegs : Bool → WavState → List MimicResult → Bool × WavState
  | ps, w, [] => (ps, w)
  | ps, w, .audio a :: rest =>
    if ps then
      runSegs ps { w with frames := w.frames ++ a.audio_bytes } rest
    else
      runSegs true
        { framerate := some a.sample_rate_hz
        , sampwidth := some a.sample_width_bytes
        , nchannels := some a.num_channels
        , frames := w.frames ++ a.audio_bytes } rest
  | ps, w, .other :: rest => runSegs ps w rest

/-- `wave` module `close`: succeeds with the container's content when all
format parameters are set, otherwise raises (`wave.Error`). -/
def wavClose (w : WavState) : Except Unit (Nat × Nat × Nat × List Nat) :=
  match w.framerate, w.sampwidth, w.nchannels with
  | some r, some sw, some nc => .ok (r, sw, nc, w.frames)
  | _, _, _ => .error ()

/-- The container state at close time when an engine error was raised:
the except-branch (lines 173-178) applies the hard-coded fallback format
22050 Hz / 2 bytes / 1 channel when no parameters were set, purely so the
container can be closed. -/
def closeParams (segs : List MimicResult) : WavState :=
  let r := runSegs false wavInit segs
  if r.1 then r.2
  else { r.2 with framerate := some 22050, sampwidth := some 2, nchannels := some 1 }

/-- Errors escaping `_mimic3_synth`: a re-raised engine exception, or a
`wave.Error` from closing a parameterless container. -/
inductive SynthErr
  | engine (e : Nat)
  | waveErr
deriving DecidableEq, Repr

/-- `Mimic3TTSPlugin._mimic3_synth`.  The engine's behaviour is the pair
`(segs, engErr)`: the results it yields, and `some e` when it raises
after them (covering a raise before any result with `segs = []`).
On an engine error the fallback-completed container is closed and the
original error re-raised; on success the closed container's content
(format parameters and frame bytes) is returned. -/
def mimic3Synth (segs : List MimicResult) (engErr : Option Nat) :
    Except SynthErr (Nat × Nat × Nat × List Nat) :=
  match engErr with
  | some e =>
    match wavClose (closeParams segs) with
    | .ok _ => .error (.engine e)
    | .error _ => .error .waveErr
  | none =>
    match wavClose (runSegs false wavInit segs).2 with
    | .ok out => .ok out
    | .error _ => .error .waveErr

/-! ### Lock discipline of `get_tts` (`with self.lock`)

`get_tts` executes its whole body — voice/speaker snapshot and swap, text
normalization, synthesis, restoration — inside `with self.lock:` on the
instance's single `threading.Lock`.  We model two concurrent `get_tts`
calls on one instance as two threads each running the program
"acquire; `critLen` critical actions; release", with the standard lock
semantics: acquire succeeds only when the lock is free. -/

/-- Thread identifier: two concurrent callers of `get_tts`. -/
abbrev Tid := Bool

/-- Actions of one `get_tts` call: acquire the instance lock, perform a
step of the critical section (snapshot, voice/speaker swap, normalize,
render, restore), release the lock. -/
inductive Act
  | acq
  | crit
  | rel
deriving DecidableEq, Repr

/-- Number of critical actions inside the locked block of `get_tts`
(snapshot, voice swap, speaker swap, normalize, render, restore ...); the
concurrency argument holds for any positive count, so it is a parameter
of `LockStep`. -/
def critLen : Nat := 6

/-- A configuration: the lock owner (if held) and each thread's program
counter in the script `acq :: crit^n ++ [rel]`. -/
structure Conf where
  lock : Option Tid
  pc : Tid → Nat

/-- Initial configuration: lock free, both callers before their
`with self.lock:`. -/
def confInit : Conf := ⟨none, fun _ => 0⟩

/-- Pointwise update of a program-counter map. -/
def updPc (f : Tid → Nat) (t : Tid) (v : Nat) : Tid → Nat :=
  fun u => if u = t then v else f u

/-- One interleaving step of the two `get_tts` calls, for a critical
section of `n` actions.  `acq` (entering `with self.lock:`) requires the
lock to be free and takes it; `crit` performs one action of the locked
body; `rel` (leaving the `with` block) frees the lock. -/
inductive LockStep (n : Nat) : Conf → Tid × Act → Conf → Prop
  | acq {c : Conf} {t : Tid} :
      c.lock = none → c.pc t = 0 →
      LockStep n c (t, .acq) ⟨some t, updPc c.pc t 1⟩
  | crit {c : Conf} {t : Tid} :
      1 ≤ c.pc t → c.pc t ≤ n →
      LockStep n c (t, .crit) ⟨c.lock, updPc c.pc t (c.pc t + 1)⟩
  | rel {c : Conf} {t : Tid} :
      c.pc t = n + 1 →
      LockStep n c (t, .rel) ⟨none, updPc c.pc t (n + 2)⟩

/-- A trace of interleaved steps with its intermediate configurations. -/
inductive LockTrace (n : Nat) : Conf → List (Tid × Act) → Conf → Prop
  | nil {c : Conf} : LockTrace n c [] c
  | cons {c c' c'' : Conf} {e : Tid × Act} {l : List (Tid × Act)} :
      LockStep n c e c' → LockTrace n c' l c'' → LockTrace n c (e :: l) c''

/-! ### Lemmas about the WAV-assembly loop -/

/-- `isAudio r`: the result is an `AudioResult` instance. -/
def isAudio : MimicResult → Bool
  | .audio _ => true
  | .other => false

/-- The audio segments of a result sequence, in order. -/
def audioList (segs : List MimicResult) : List AudioResult :=
  segs.filterMap fun r => match r with | .audio a => some a | .other => none

/-- All three format parameters of the container are fixed. -/
def paramsSet (w : WavState) : Prop :=
  w.framerate.isSome ∧ w.sampwidth.isSome ∧ w.nchannels.isSome

/-- The container's format parameters, when all are set. -/
def wavParams (w : WavState) : Option (Nat × Nat × Nat) :=
  match w.framerate, w.sampwidth, w.nchannels with
  | some r, some sw, some nc => some (r, sw, nc)
  | _, _, _ => none

theorem runSegs_paramsSet : ∀ (segs : List MimicResult) (ps : Bool) (w : WavState),
    (ps = true → paramsSet w) →
    ((runSegs ps w segs).1 = true → paramsSet (runSegs ps w segs).2) := by
  intro segs
  induction segs with
  | nil => intro ps w h; simpa [runSegs] using h
  | cons r rest ih =>
    intro ps w h
    match r with
    | .audio a =>
      by_cases hps : ps = true
      · simp only [runSegs, hps, if_true]
        exact ih true _ (fun _ => by simpa [paramsSet] using h hps)
      · simp only [runSegs, hps, if_false]
        exact ih true _ (fun _ => by simp [paramsSet])
    | .other =>
      simp only [runSegs]
      exact ih ps w h

theorem wavClose_ok_of_paramsSet {w : WavState} (h : paramsSet w) :
    wavClose w = .ok (w.framerate.getD 0, w.sampwidth.getD 0, w.nchannels.getD 0, w.frames) := by
  obtain ⟨h1, h2, h3⟩ := h
  obtain ⟨r, hr⟩ := Option.isSome_iff_exists.mp h1
  obtain ⟨sw, hsw⟩ := Option.isSome_iff_exists.mp h2
  obtain ⟨nc, hnc⟩ := Option.isSome_iff_exists.mp h3
  simp [wavClose, hr, hsw, hnc]

theorem closeParams_paramsSet (segs : List MimicResult) :
    paramsSet (closeParams segs) := by
  unfold closeParams
  by_cases h : (runSegs false wavInit segs).1 = true
  · simpa [h] using runSegs_paramsSet segs false wavInit (by simp) h
  · simp only [Bool.not_eq_true] at h
    simp [h, paramsSet]

theorem runSegs_noAudio : ∀ (segs : List MimicResult) (ps : Bool) (w : WavState),
    (∀ r ∈ segs, isAudio r = false) → runSegs ps w segs = (ps, w) := by
  intro segs
  induction segs with
  | nil => intro ps w _; simp [runSegs]
  | cons r rest ih =>
    intro ps w h
    match r with
    | .audio a => simpa [isAudio] using h (.audio a) (by simp)
    | .other =>
      simp only [runSegs]
      exact ih ps w (fun s hs => h s (by simp [hs]))

theorem runSegs_frames : ∀ (segs : List MimicResult) (ps : Bool) (w : WavState),
    (runSegs ps w segs).2.frames = w.frames ++ ((audioList segs).map AudioResult.audio_bytes).flatten := by
  intro segs
  induction segs with
  | nil => intro ps w; simp [runSegs, audioList]
  | cons r rest ih =>
    intro ps w
    match r with
    | .audio a =>
      by_cases hps : ps = true
      · simp only [runSegs, hps, if_true]
        rw [ih]
        simp [audioList, List.append_assoc]
      · simp only [runSegs, hps, if_neg Bool.false_ne_true]
        rw [ih]
        simp [audioList, List.append_assoc]
    | .other =>
      simp only [runSegs]
      rw [ih]
      simp [audioList]

theorem runSegs_params_frozen : ∀ (segs : List MimicResult) (w : WavState),
    (runSegs true w segs).2.framerate = w.framerate ∧
    (runSegs true w segs).2.sampwidth = w.sampwidth ∧
    (runSegs true w segs).2.nchannels = w.nchannels := by
  intro segs
  induction segs with
  | nil => intro w; simp [runSegs]
  | cons r rest ih =>
    intro w
    match r with
    | .audio a => simpa [runSegs] using ih _
    | .other => simpa [runSegs] using ih w

theorem runSegs_params_first : ∀ (segs : List MimicResult) (w : WavState),
    wavParams (runSegs false w segs).2 =
      match (audioList segs).head? with
      | some a => some (a.sample_rate_hz, a.sample_width_bytes, a.num_channels)
      | none => wavParams w := by
  intro segs
  induction segs with
  | nil => intro w; simp [runSegs, audioList]
  | cons r rest ih =>
    intro w
    match r with
    | .audio a =>
      simp only [runSegs, if_neg (by simp : ¬(false = true))]
      have h := runSegs_params_frozen rest
        { framerate := some a.sample_rate_hz, sampwidth := some a.sample_width_bytes
        , nchannels := some a.num_channels, frames := w.frames ++ a.audio_bytes }
      simp [audioList, wavParams, h.1, h.2.1, h.2.2]
    | .other =>
      simp only [runSegs]
      rw [ih]
      simp [audioList]

/-! ### Claim C3 and C10: WAV assembly -/

/-- C3: if the engine raises (`engErr = some e`) — in particular before
any audio segment fixed the container parameters — `_mimic3_synth`
re-raises the engine error and returns no WAV bytes; when no audio
segment was seen, the container is closed under the hard-coded fallback
format 22050 Hz, 16-bit (2 bytes), mono, with no frames, purely so the
close is clean; when parameters were already fixed the close is also
clean and the same error propagates, with no partial result returned. -/
theorem mimic3Synth_error_policy (segs : List MimicResult) (e : Nat) :
    mimic3Synth segs (some e) = .error (.engine e) ∧
    ((∀ r ∈ segs, isAudio r = false) →
      closeParams segs =
        { framerate := some 22050, sampwidth := some 2, nchannels := some 1, frames := [] }) := by
  constructor
  · unfold mimic3Synth
    rw [wavClose_ok_of_paramsSet (closeParams_paramsSet segs)]
  · intro h
    unfold closeParams
    rw [runSegs_noAudio segs false wavInit h]
    simp [wavInit]

theorem mimic3Synth_error_policy_witness :
    mimic3Synth [MimicResult.other] (some 3) = .error (.engine 3) ∧
    closeParams [MimicResult.other] =
      { framerate := some 22050, sampwidth := some 2, nchannels := some 1, frames := [] } :=
  ⟨(mimic3Synth_error_policy [MimicResult.other] 3).1,
   (mimic3Synth_error_policy [MimicResult.other] 3).2 (by decide)⟩

/-- C10: the result loop of `_mimic3_synth` uses only `AudioResult`
segments: a non-audio result is skipped without touching the container;
the accumulated frame bytes are exactly the audio segments' bytes in
order; and the container's format parameters come from the first audio
segment only (absent when there is none). -/
theorem runSegs_audio_only (segs : List MimicResult) :
    (∀ (ps : Bool) (w : WavState) (rest : List MimicResult),
        runSegs ps w (MimicResult.other :: rest) = runSegs ps w rest) ∧
    (runSegs false wavInit segs).2.frames =
      ((audioList segs).map AudioResult.audio_bytes).flatten ∧
    wavParams (runSegs false wavInit segs).2 =
      ((audioList segs).head?).map
        (fun a => (a.sample_rate_hz, a.sample_width_bytes, a.num_channels)) := by
  refine ⟨fun ps w rest => by simp [runSegs], ?_, ?_⟩
  · rw [runSegs_frames]
    simp [wavInit]
  · rw [runSegs_params_first]
    match h : (audioList segs).head? with
    | some a => simp
    | none => simp [wavInit, wavParams]

/-! ### Claims C1, C2, C4: orchestration and voice directory -/

theorem lookupAssoc_setAssoc : ∀ (t : List (LC × LC)) (k v : LC),
    lookupAssoc (setAssoc t k v) k = some v := by
  intro t k v
  induction t with
  | nil => simp [setAssoc, lookupAssoc]
  | cons p rest ih =>
    obtain ⟨k', v'⟩ := p
    by_cases h : k' = k
    · simp [setAssoc, lookupAssoc, h]
    · simp [setAssoc, lookupAssoc, h, ih]

/-- C1 counterexample: a `get_tts` call with a voice override whose
synthesis raises leaves the handle's voice at the overridden value
(`"v1"`), not the pre-call value (`"v0"`); the source restores
voice/speaker after `_mimic3_synth` with no `try/finally`, so the
restoring assignments are skipped when the engine raises. -/
theorem getTts_no_restore_on_error :
    (getTts [] (fun _ _ => .error 7) ("hi".data) none (some ("v1".data)) none
        ⟨some ("v0".data), some ("s0".data)⟩).2 = .error 7 ∧
    (getTts [] (fun _ _ => .error 7) ("hi".data) none (some ("v1".data)) none
        ⟨some ("v0".data), some ("s0".data)⟩).1.voice = some ("v1".data) ∧
    some ("v1".data) ≠ some ("v0".data) :=
  ⟨rfl, by decide⟩

/-- C1 (amended): the handle's voice and speaker are restored to their
pre-call values exactly when `_mimic3_synth` returns normally; when it
raises, the error propagates out of the locked block with the handle's
voice and speaker still at the request's resolved values (no restoration
on the error path). -/
theorem getTts_restore_on_success (dv : List (LC × LC))
    (render : LC → Bool → Except Nat (List Nat)) (sentence : LC)
    (lang voice speaker : Option LC) (st : TTSState) :
    ((getTts dv render sentence lang voice speaker st).2.isOk = true →
      (getTts dv render sentence lang voice speaker st).1.voice = st.voice ∧
      (getTts dv render sentence lang voice speaker st).1.speaker = st.speaker) ∧
    (∀ e, (getTts dv render sentence lang voice speaker st).2 = .error e →
      (getTts dv render sentence lang voice speaker st).1.voice =
        pickVoice dv st.voice voice lang ∧
      (getTts dv render sentence lang voice speaker st).1.speaker =
        (if truthy speaker then speaker else st.speaker)) := by
  by_cases hsp : truthy speaker = true <;>
    rcases hr : render (applyTextHacks sentence).1 (applyTextHacks sentence).2 with e | b <;>
      simp [getTts, hr, hsp, Except.isOk, Except.toBool]

theorem getTts_restore_on_success_witness :
    ((getTts [] (fun _ _ => .ok []) ("hi".data) none (some ("v1".data)) none
        ⟨some ("v0".data), some ("s0".data)⟩).2.isOk = true) ∧
    ((getTts [] (fun _ _ => .ok []) ("hi".data) none (some ("v1".data)) none
        ⟨some ("v0".data), some ("s0".data)⟩).1.voice = some ("v0".data) ∧
     (getTts [] (fun _ _ => .ok []) ("hi".data) none (some ("v1".data)) none
        ⟨some ("v0".data), some ("s0".data)⟩).1.speaker = some ("s0".data)) :=
  ⟨by decide,
   (getTts_restore_on_success [] (fun _ _ => .ok []) ("hi".data) none (some ("v1".data)) none
      ⟨some ("v0".data), some ("s0".data)⟩).1 (by decide)⟩

/-- C2 counterexample: constructing one instance with configured default
voice `"my_voice"` and language `"en-us"` mutates the class-level
`default_voices` table; a second instance (constructed afterwards with no
configured voice) resolves language `"en-us"` through the same shared
table to `"my_voice"`, whereas the unmutated table resolves it (via the
primary subtag `"en"`) to `"en_US/cmu-arctic_low"`.  The registration is
therefore not instance-local: it is observable through other instances'
lookups. -/
theorem defaultVoices_shared_mutation :
    pickVoice ((initPlugin
        (initPlugin ⟨defaultVoicesInit⟩ ("en-us".data) none (some ("my_voice".data))).1
        ("de".data) none none).1).default_voices
      none none (some ("en-us".data)) = some ("my_voice".data) ∧
    pickVoice defaultVoicesInit none none (some ("en-us".data)) =
      some ("en_US/cmu-arctic_low".data) ∧
    ("my_voice".data : LC) ≠ "en_US/cmu-arctic_low".data := by decide

/-- C2 (amended): registering a configured default voice at construction
time writes through to the class-level `default_voices` table shared by
all instances: afterwards the shared table maps the instance's language
to the configured voice, and since constructing further instances without
a configured voice leaves the table untouched, the registration is
observable through every other instance's default-voice lookups. -/
theorem initPlugin_registers_shared (cls : PluginClass) (langParam v : LC)
    (hv : v.isEmpty = false) :
    lookupAssoc ((initPlugin cls langParam none (some v)).1).default_voices langParam
        = some v ∧
    (∀ (cls2 : PluginClass) (lp2 : LC) (cl2 : Option LC),
        (initPlugin cls2 lp2 cl2 none).1 = cls2) := by
  constructor
  · simp only [initPlugin, truthy, hv, Bool.not_false, if_true, Option.getD]
    exact lookupAssoc_setAssoc _ _ _
  · intro cls2 lp2 cl2
    simp [initPlugin, truthy]

theorem initPlugin_registers_shared_witness :
    ("my_voice".data).isEmpty = false ∧
    lookupAssoc ((initPlugin ⟨defaultVoicesInit⟩ ("en-us".data) none
        (some ("my_voice".data))).1).default_voices ("en-us".data) =
      some ("my_voice".data) :=
  ⟨by decide,
   (initPlugin_registers_shared ⟨defaultVoicesInit⟩ ("en-us".data) ("my_voice".data)
      (by decide)).1⟩

/-- C4: per-request voice resolution — a truthy explicit voice override
is used verbatim; otherwise a truthy language override is resolved
against the default-voice table with the exact tag, falling back to the
primary subtag when the exact tag is absent, the handle's voice being set
to the found voice or left unchanged (with no error) when none is found;
a request with neither override leaves the voice unchanged.  In
particular `"en-nz"` falls back to the `"en"` entry. -/
theorem pickVoice_resolution (dv : List (LC × LC)) (cur : Option LC)
    (vo lo : Option LC) :
    (truthy vo = true → pickVoice dv cur vo lo = vo) ∧
    (truthy vo = false → ∀ l : LC, lo = some l → l.isEmpty = false →
      pickVoice dv cur vo lo =
        (match lookupAssoc dv (if (lookupAssoc dv l).isSome then l else primaryTag l) with
         | some w => some w
         | none => cur)) ∧
    (truthy vo = false → truthy lo = false → pickVoice dv cur vo lo = cur) ∧
    (∀ c : Option LC, pickVoice defaultVoicesInit c none (some ("en-nz".data)) =
        some ("en_US/cmu-arctic_low".data)) := by
  refine ⟨?_, ?_, ?_, ?_⟩
  · intro h
    simp [pickVoice, h]
  · intro h l hlo hle
    subst hlo
    simp [pickVoice, h, hle]
  · intro h hlo
    match lo with
    | none => simp [pickVoice, h]
    | some l =>
      have hl : l.isEmpty = true := by
        revert hlo
        simp only [truthy]
        cases l.isEmpty <;> simp
      simp [pickVoice, h, hl]
  · intro c
    have h1 : (lookupAssoc defaultVoicesInit ("en-nz".data)).isSome = false := by decide
    have h2 : lookupAssoc defaultVoicesInit (primaryTag ("en-nz".data)) =
        some ("en_US/cmu-arctic_low".data) := by decide
    simp [pickVoice, truthy, h1, h2]

theorem pickVoice_resolution_witness :
    (truthy (some ("v".data)) = true ∧
      pickVoice defaultVoicesInit none (some ("v".data)) none = some ("v".data)) ∧
    pickVoice defaultVoicesInit none none (some ("en-nz".data)) =
      some ("en_US/cmu-arctic_low".data) :=
  ⟨⟨by decide,
    (pickVoice_resolution defaultVoicesInit none (some ("v".data)) none).1 (by decide)⟩,
   (pickVoice_resolution defaultVoicesInit none none (some ("en-nz".data))).2.2.2 none⟩

/-! ### Claims C6 and C8: two-character rule, a.m./p.m. fix -/

/-- A (non-empty) pattern `p0 :: pt` matches at the head of `s`. -/
def matchHere (p0 : Char) (pt : List Char) : List Char → Bool
  | [] => false
  | c :: rest => c == p0 && matchesAt pt rest

theorem matchesAt_append_self : ∀ p v : List Char, matchesAt p (p ++ v) = true := by
  intro p
  induction p with
  | nil => intro v; simp [matchesAt]
  | cons c cs ih => intro v; simp [matchesAt, ih]

theorem pyReplaceGo_skip_append (p0 : Char) (pt rep : List Char) :
    ∀ a v : List Char, pyReplaceGo p0 pt rep a.length (a ++ v) = pyReplaceGo p0 pt rep 0 v := by
  intro a
  induction a with
  | nil => intro v; simp
  | cons x a' ih => intro v; simpa [pyReplaceGo] using ih v

theorem pyReplace_leftmost (p0 : Char) (pt rep : List Char) :
    ∀ u v : List Char,
    (∀ i < u.length, matchHere p0 pt ((u ++ (p0 :: pt) ++ v).drop i) = false) →
    pyReplace p0 pt rep (u ++ (p0 :: pt) ++ v) = u ++ rep ++ pyReplace p0 pt rep v := by
  intro u
  induction u with
  | nil =>
    intro v _
    show pyReplaceGo p0 pt rep 0 (p0 :: (pt ++ v)) = rep ++ pyReplaceGo p0 pt rep 0 v
    simp only [pyReplaceGo, beq_self_eq_true, matchesAt_append_self, Bool.and_self, if_true]
    rw [← pyReplaceGo_skip_append p0 pt rep pt (v := v)]
  | cons c u' ih =>
    intro v h
    have h0 : matchHere p0 pt (c :: (u' ++ (p0 :: pt) ++ v)) = false := by
      simpa using h 0 (by simp)
    have hcond : (c == p0 && matchesAt pt (u' ++ (p0 :: pt) ++ v)) = false := by
      simpa [matchHere] using h0
    show pyReplaceGo p0 pt rep 0 (c :: (u' ++ (p0 :: pt) ++ v)) = _
    simp only [pyReplaceGo, hcond, if_neg Bool.false_ne_true]
    have := ih v (fun i hi => by simpa using h (i + 1) (by simpa using hi))
    simpa [pyReplace, List.append_assoc] using this

/-- C8: `_apply_text_hacks` inserts a space after every occurrence of
`" a.m."` and `" p.m."`: replacing the leftmost occurrence yields the
occurrence followed by an inserted space, and scanning continues after it
(so, by iteration, every non-overlapping occurrence is treated).  In
particular `_apply_text_hacks("8 a.m.next")` produces the text
`"8 a.m. next"`. -/
theorem textHacks_am_pm (u v : List Char) :
    ((∀ i < u.length, matchHere ' ' ("a.m.".data) ((u ++ " a.m.".data ++ v).drop i) = false) →
      amFix (u ++ " a.m.".data ++ v) = u ++ " a.m. ".data ++ amFix v) ∧
    ((∀ i < u.length, matchHere ' ' ("p.m.".data) ((u ++ " p.m.".data ++ v).drop i) = false) →
      pmFix (u ++ " p.m.".data ++ v) = u ++ " p.m. ".data ++ pmFix v) ∧
    (applyTextHacks ("8 a.m.next".data)).1 = "8 a.m. next".data := by
  refine ⟨?_, ?_, by decide⟩
  · intro h
    exact pyReplace_leftmost ' ' ("a.m.".data) (" a.m. ".data) u v h
  · intro h
    exact pyReplace_leftmost ' ' ("p.m.".data) (" p.m. ".data) u v h

theorem textHacks_am_pm_witness :
    (∀ i < ("8".data : LC).length,
      matchHere ' ' ("a.m.".data) (("8".data ++ " a.m.".data ++ "next".data).drop i) = false) ∧
    amFix ("8".data ++ " a.m.".data ++ "next".data) =
      "8".data ++ " a.m. ".data ++ amFix ("next".data) :=
  ⟨by decide, (textHacks_am_pm ("8".data) ("next".data)).1 (by decide)⟩

/-- C6: for every input of exactly two characters whose second character
is `;`, `_apply_text_hacks` returns the SSML spell-out directive for the
first character with `ssml = true`; the quoted-letter rule is in the
`else` branch and is not applied.  (A two-character input cannot be
changed by the a.m./p.m. fixes or the acronym collapse, so the
two-character check fires on it unchanged; `normalize("A;")` is the
instance `a := 'A'`.) -/
theorem applyTextHacks_two_char (a : Char) :
    applyTextHacks [a, ';'] = (ssmlSpell a, true) := by
  have ham : amFix [a, ';'] = [a, ';'] := by
    have h1 : matchesAt ("a.m.".data) [';'] = false := by decide
    have h2 : matchesAt ("a.m.".data) ([] : List Char) = false := by decide
    simp [amFix, pyReplace, pyReplaceGo, h1, h2]
  have hpm : pmFix [a, ';'] = [a, ';'] := by
    have h1 : matchesAt ("p.m.".data) [';'] = false := by decide
    have h2 : matchesAt ("p.m.".data) ([] : List Char) = false := by decide
    simp [pmFix, pyReplace, pyReplaceGo, h1, h2]
  have hrun : (acroRun [a, ';']).1 = [] := by
    by_cases hu : isUpperAZ a = true <;>
      simp [acroRun, hu, (by decide : ¬(';' = ' ')), (by decide : ¬(';' = '\n'))]
  have hscan : acroScan [a, ';'] = [a, ';'] := by
    have hsemi : isUpperAZ ';' = false := by decide
    simp [acroScan, acroScanGo, hrun, hsemi]
  have hpre : preText [a, ';'] = [a, ';'] := by
    simp [preText, ham, hpm, hscan]
  have h2c : twoCharCase [a, ';'] := ⟨by simp, by simp⟩
  simp [applyTextHacks, hpre, h2c]

/-! ### Claim C5: the `ssml` flag -/

/-- The text does not begin — after stripping leading whitespace — with
`<`. -/
def noLt (s : LC) : Prop := startsWithChar '<' (s.dropWhile pyIsSpace) = false

theorem startsWith_pyStrip (s : LC) :
    startsWithChar '<' (pyStrip s) = startsWithChar '<' (s.dropWhile pyIsSpace) := by
  unfold pyStrip
  cases h : s.dropWhile pyIsSpace with
  | nil => simp [startsWithChar]
  | cons x xs =>
    have hx : pyIsSpace x = false := by
      have := List.head?_dropWhile_not pyIsSpace s
      rw [h] at this
      simpa using this
    rw [List.reverse_cons, List.dropWhile_append]
    have hone : List.dropWhile pyIsSpace [x] = [x] := by
      simp [List.dropWhile_cons, hx]
    by_cases he : (List.dropWhile pyIsSpace xs.reverse).isEmpty = true
    · simp [he, hone, startsWithChar]
    · rw [if_neg he, List.reverse_append]
      cases hw : List.dropWhile pyIsSpace xs.reverse with
      | nil => simp [hw] at he
      | cons y ys => simp [startsWithChar]

theorem startsWith_append_left {c : Char} {a b : LC} (ha : a ≠ []) :
    startsWithChar c (a ++ b) = startsWithChar c a := by
  cases a with
  | nil => exact absurd rfl ha
  | cons x xs => simp [startsWithChar]

theorem pyReplaceGo_noLt (p0 : Char) (pt rep : List Char)
    (h1 : rep.dropWhile pyIsSpace ≠ [])
    (h2 : startsWithChar '<' (rep.dropWhile pyIsSpace) = false) :
    ∀ s : LC, noLt s → noLt (pyReplaceGo p0 pt rep 0 s) := by
  intro s
  induction s with
  | nil => intro h; simpa [pyReplaceGo] using h
  | cons c rest ih =>
    intro h
    by_cases hm : (c == p0 && matchesAt pt rest) = true
    · simp only [pyReplaceGo, hm, if_true]
      unfold noLt
      rw [List.dropWhile_append]
      have hne : (rep.dropWhile pyIsSpace).isEmpty = false := by
        cases hrep : rep.dropWhile pyIsSpace with
        | nil => exact absurd hrep h1
        | cons y ys => simp
      simp only [hne, Bool.false_eq_true, if_false]
      rw [startsWith_append_left h1]
      exact h2
    · simp only [pyReplaceGo, hm, if_neg Bool.false_ne_true]
      unfold noLt at h ⊢
      rw [List.dropWhile_cons] at h ⊢
      by_cases hc : pyIsSpace c = true
      · simp only [hc, if_true] at h ⊢
        exact ih h
      · simp only [hc, Bool.false_eq_true, if_false] at h ⊢
        exact h

theorem isUpperAZ_facts {c : Char} (h : isUpperAZ c = true) :
    pyIsSpace c = false ∧ (c == '<') = false := by
  constructor
  · by_contra hs
    rw [Bool.not_eq_false] at hs
    simp only [pyIsSpace, Bool.or_eq_true, decide_eq_true_eq] at hs
    rcases hs with (((((h' | h') | h') | h') | h') | h') <;>
      (subst h'; exact absurd h (by decide))
  · by_contra hb
    rw [Bool.not_eq_false, beq_iff_eq] at hb
    subst hb
    exact absurd h (by decide)

theorem acroRepl_cons (c : Char) (t : List Char) :
    ∃ u, acroRepl (c :: t) = c :: u := by
  cases t with
  | nil => exact ⟨['.', ' '], rfl⟩
  | cons d tl => exact ⟨'.' :: acroRepl (d :: tl), rfl⟩

theorem acroScanGo_noLt : ∀ (s : LC) (pw : Bool), noLt s → noLt (acroScanGo 0 pw s) := by
  intro s
  induction s with
  | nil => intro pw h; simpa [acroScanGo] using h
  | cons c rest ih =>
    intro pw h
    by_cases hm : ((!pw && isUpperAZ c) && decide (2 ≤ (acroRun (c :: rest)).1.length)) = true
    · simp only [acroScanGo, hm, if_true]
      have hm' := hm
      rw [Bool.and_eq_true, Bool.and_eq_true] at hm'
      obtain ⟨⟨_, hup⟩, hdec⟩ := hm'
      have hlen : 2 ≤ (acroRun (c :: rest)).1.length := of_decide_eq_true hdec
      have hne : (acroRun (c :: rest)).1 ≠ [] := by
        intro hnil
        rw [hnil] at hlen
        simp at hlen
      obtain ⟨t, ht⟩ := acroRun_fst_head hne
      rw [ht]
      obtain ⟨u, hu⟩ := acroRepl_cons c t
      rw [hu]
      obtain ⟨hsp, hlt⟩ := isUpperAZ_facts hup
      unfold noLt
      rw [List.cons_append, List.dropWhile_cons]
      simp [hsp, startsWithChar, hlt]
    · simp only [acroScanGo, hm, if_neg Bool.false_ne_true]
      unfold noLt at h ⊢
      rw [List.dropWhile_cons] at h ⊢
      by_cases hc : pyIsSpace c = true
      · simp only [hc, if_true] at h ⊢
        exact ih _ h
      · simp only [hc, Bool.false_eq_true, if_false] at h ⊢
        exact h

/-- C5: for input whose whitespace-trimmed form does not begin with `<`,
`_apply_text_hacks` returns `ssml = false` unless the two-character
spell-out rule fires or the quoted-letter rule makes at least one
replacement, in which case `ssml` is forced to `true`.  (The rules are
checked, as in the source, on the text after the a.m./p.m. fixes and the
acronym collapse; those transformations cannot make the trimmed text
start with `<`.) -/
theorem applyTextHacks_ssml (s : LC)
    (h : startsWithChar '<' (pyStrip s) = false) :
    ((applyTextHacks s).2 = true ↔
      twoCharCase (preText s) ∨ 0 < (spellSub (preText s)).2) := by
  have h0 : noLt s := by
    unfold noLt
    rw [← startsWith_pyStrip]
    exact h
  have hA : noLt (amFix s) :=
    pyReplaceGo_noLt ' ' ("a.m.".data) (" a.m. ".data) (by decide) (by decide) s h0
  have hP : noLt (pmFix (amFix s)) :=
    pyReplaceGo_noLt ' ' ("p.m.".data) (" p.m. ".data) (by decide) (by decide) _ hA
  have hS : noLt (preText s) := acroScanGo_noLt _ false hP
  have hps : startsWithChar '<' (pyStrip (preText s)) = false := by
    rw [startsWith_pyStrip]
    exact hS
  by_cases h2c : twoCharCase (preText s)
  · simp only [applyTextHacks]
    rw [if_pos h2c]
    simp only [true_iff]
    exact Or.inl h2c
  · simp only [applyTextHacks]
    rw [if_neg h2c]
    simp [h2c, hps]

theorem applyTextHacks_ssml_witness :
    startsWithChar '<' (pyStrip ("hello".data)) = false ∧
    ((applyTextHacks ("hello".data)).2 = true ↔
      twoCharCase (preText ("hello".data)) ∨ 0 < (spellSub (preText ("hello".data))).2) :=
  ⟨by decide, applyTextHacks_ssml ("hello".data) (by decide)⟩

/-! ### Claim C7: acronym collapse -/

/-- A run of single letters separated by single spaces (e.g. `"A B"` for
`['A', 'B']`), the last letter at the end of the string. -/
def spaced : List Char → List Char
  | [] => []
  | [c] => [c]
  | c :: rest => c :: ' ' :: spaced rest

theorem beq_false_of_upper {c x : Char} (hc : isUpperAZ c = true)
    (hx : isUpperAZ x = false) : (c == x) = false ∧ (x == c) = false := by
  constructor
  · by_contra hb
    rw [Bool.not_eq_false, beq_iff_eq] at hb
    subst hb
    rw [hc] at hx
    exact absurd hx (by decide)
  · by_contra hb
    rw [Bool.not_eq_false, beq_iff_eq] at hb
    subst hb
    rw [hc] at hx
    exact absurd hx (by decide)

theorem pyReplace_spaced_noop (h0 : Char) (pt' rep : List Char)
    (hh : isUpperAZ h0 = false) :
    ∀ ls : List Char, (∀ c ∈ ls, isUpperAZ c = true) →
      pyReplaceGo ' ' (h0 :: pt') rep 0 (spaced ls) = spaced ls ∧
      pyReplaceGo ' ' (h0 :: pt') rep 0 (' ' :: spaced ls) = ' ' :: spaced ls := by
  intro ls
  induction ls using spaced.induct with
  | case1 =>
    intro _
    refine ⟨rfl, ?_⟩
    have hm : matchesAt (h0 :: pt') ([] : List Char) = false := rfl
    simp [spaced, pyReplaceGo, hm]
  | case2 c =>
    intro hup
    have hc : isUpperAZ c = true := hup c (by simp [spaced])
    have hcs : (c == ' ') = false := (beq_false_of_upper hc (by decide)).1
    have hm : matchesAt (h0 :: pt') [c] = false := by
      have hb := (beq_false_of_upper hc hh).2
      simp [matchesAt, hb]
    constructor
    · simp [spaced, pyReplaceGo, hcs]
    · simp [spaced, pyReplaceGo, hcs, hm]
  | case3 c rest hne ih =>
    intro hup
    obtain ⟨d, tl, rfl⟩ : ∃ d tl, rest = d :: tl := by
      cases rest with
      | nil => exact (hne rfl).elim
      | cons d tl => exact ⟨d, tl, rfl⟩
    have hc : isUpperAZ c = true := hup c (by simp)
    have hcs : (c == ' ') = false := (beq_false_of_upper hc (by decide)).1
    have hd : isUpperAZ d = true := hup d (by simp)
    have hm : matchesAt (h0 :: pt') (c :: ' ' :: spaced (d :: tl)) = false := by
      have hb := (beq_false_of_upper hc hh).2
      simp [matchesAt, hb]
    obtain ⟨u, hu⟩ : ∃ u, spaced (d :: tl) = d :: u := by
      cases tl with
      | nil => exact ⟨[], rfl⟩
      | cons e t => exact ⟨' ' :: spaced (e :: t), rfl⟩
    have hm2 : matchesAt (h0 :: pt') (spaced (d :: tl)) = false := by
      rw [hu]
      have hb := (beq_false_of_upper hd hh).2
      simp [matchesAt, hb]
    have ihs := ih (fun x hx => hup x (List.mem_cons_of_mem _ hx))
    have hfirst : pyReplaceGo ' ' (h0 :: pt') rep 0 (c :: ' ' :: spaced (d :: tl)) =
        c :: ' ' :: spaced (d :: tl) := by
      simp only [pyReplaceGo, hcs, hm2, Bool.false_and, Bool.and_false,
        if_neg Bool.false_ne_true]
      rw [ihs.1]
    constructor
    · exact hfirst
    · show pyReplaceGo ' ' (h0 :: pt') rep 0 (' ' :: c :: ' ' :: spaced (d :: tl)) = _
      simp only [pyReplaceGo, hm, hcs, hm2, Bool.and_false, Bool.false_and,
        if_neg Bool.false_ne_true]
      rw [ihs.1]
      rfl

theorem acroRun_spaced : ∀ ls : List Char, ls ≠ [] →
    (∀ c ∈ ls, isUpperAZ c = true) → acroRun (spaced ls) = (ls, []) := by
  intro ls
  induction ls using spaced.induct with
  | case1 => intro h _; exact absurd rfl h
  | case2 c =>
    intro _ hup
    have hc := hup c (by simp)
    simp [spaced, acroRun, hc]
  | case3 c rest hne ih =>
    intro _ hup
    obtain ⟨d, tl, rfl⟩ : ∃ d tl, rest = d :: tl := by
      cases rest with
      | nil => exact (hne rfl).elim
      | cons d tl => exact ⟨d, tl, rfl⟩
    have hc := hup c (by simp)
    have hr : acroRun (spaced (d :: tl)) = (d :: tl, []) :=
      ih (by simp) (fun x hx => hup x (List.mem_cons_of_mem _ hx))
    show acroRun (c :: ' ' :: spaced (d :: tl)) = _
    simp [acroRun, hc, hr]

theorem acroScanGo_ge : ∀ (s : List Char) (k : Nat) (pw : Bool),
    s.length ≤ k → acroScanGo k pw s = [] := by
  intro s
  induction s with
  | nil =>
    intro k pw _
    match k with
    | 0 => rfl
    | k' + 1 => rfl
  | cons c rest ih =>
    intro k pw h
    match k with
    | 0 => simp at h
    | k' + 1 =>
      show acroScanGo k' (isWordChar c) rest = []
      exact ih k' (isWordChar c) (by simpa using h)

theorem acroScan_spaced (ls : List Char) (h2 : 2 ≤ ls.length)
    (hup : ∀ c ∈ ls, isUpperAZ c = true) : acroScan (spaced ls) = acroRepl ls := by
  match ls, h2 with
  | c :: d :: tl, _ =>
    have hc := hup c (by simp)
    have hrun : acroRun (c :: ' ' :: spaced (d :: tl)) = (c :: d :: tl, []) :=
      acroRun_spaced (c :: d :: tl) (by simp) hup
    show acroScanGo 0 false (c :: ' ' :: spaced (d :: tl)) = _
    have hcond : ((!false && isUpperAZ c) &&
        decide (2 ≤ (acroRun (c :: ' ' :: spaced (d :: tl))).1.length)) = true := by
      rw [hrun]
      simp [hc]
    have hstep : acroScanGo 0 false (c :: ' ' :: spaced (d :: tl)) =
        if ((!false && isUpperAZ c) &&
            decide (2 ≤ (acroRun (c :: ' ' :: spaced (d :: tl))).1.length)) = true then
          acroRepl (acroRun (c :: ' ' :: spaced (d :: tl))).1 ++
            acroScanGo ((' ' :: spaced (d :: tl)).length -
              (acroRun (c :: ' ' :: spaced (d :: tl))).2.length) false
              (' ' :: spaced (d :: tl))
        else c :: acroScanGo 0 (isWordChar c) (' ' :: spaced (d :: tl)) := rfl
    rw [hstep, if_pos hcond, hrun]
    rw [acroScanGo_ge _ _ _ (by simp)]
    simp

theorem spellSub_no_quote : ∀ s : List Char,
    (∀ x ∈ s, (x == quoteChar) = false) → spellSub s = (s, 0) := by
  intro s
  induction s using spellSub.induct with
  | case1 q1 c q2 rest hcond ih =>
    intro h
    have hq := h q1 (by simp)
    rw [Bool.and_eq_true, Bool.and_eq_true] at hcond
    rw [hq] at hcond
    exact absurd hcond.1.1 Bool.false_ne_true
  | case2 q1 c q2 rest hcond ih =>
    intro h
    simp only [spellSub, if_neg hcond]
    rw [ih (fun x hx => h x (List.mem_cons_of_mem _ hx))]
  | case3 s hs =>
    intro hq
    rw [spellSub.eq_def]
    split
    · rename_i q1 c q2 rest
      exact (hs q1 c q2 rest rfl).elim
    · rfl

theorem acroRepl_getLast : ∀ ls : List Char, (acroRepl ls).getLast? = some ' ' := by
  intro ls
  induction ls using acroRepl.induct with
  | case1 => rfl
  | case2 c => rfl
  | case3 c rest hne ih =>
    obtain ⟨d, tl, rfl⟩ : ∃ d tl, rest = d :: tl := by
      cases rest with
      | nil => exact (hne rfl).elim
      | cons d tl => exact ⟨d, tl, rfl⟩
    show (c :: '.' :: acroRepl (d :: tl)).getLast? = some ' '
    rw [List.getLast?_cons_cons]
    obtain ⟨u, hu⟩ := acroRepl_cons d tl
    rw [hu, List.getLast?_cons_cons, ← hu]
    exact ih

theorem acroRepl_mem : ∀ (ls : List Char) (x : Char),
    x ∈ acroRepl ls → x ∈ ls ∨ x = '.' ∨ x = ' ' := by
  intro ls
  induction ls using acroRepl.induct with
  | case1 =>
    intro x hx
    rw [show acroRepl [] = ['.', ' '] from rfl] at hx
    rcases (by simpa using hx : x = '.' ∨ x = ' ') with h | h
    · exact Or.inr (Or.inl h)
    · exact Or.inr (Or.inr h)
  | case2 c =>
    intro x hx
    rw [show acroRepl [c] = [c, '.', ' '] from rfl] at hx
    rcases (by simpa using hx : x = c ∨ x = '.' ∨ x = ' ') with h | h | h
    · exact Or.inl (by simp [h])
    · exact Or.inr (Or.inl h)
    · exact Or.inr (Or.inr h)
  | case3 c rest hne ih =>
    intro x hx
    obtain ⟨d, tl, rfl⟩ : ∃ d tl, rest = d :: tl := by
      cases rest with
      | nil => exact (hne rfl).elim
      | cons d tl => exact ⟨d, tl, rfl⟩
    rw [show acroRepl (c :: d :: tl) = c :: '.' :: acroRepl (d :: tl) from rfl] at hx
    have hx' : x = c ∨ x = '.' ∨ x ∈ acroRepl (d :: tl) := by
      simpa using hx
    rcases hx' with h | h | h
    · exact Or.inl (by simp [h])
    · exact Or.inr (Or.inl h)
    · rcases ih x h with h' | h' | h'
      · exact Or.inl (List.mem_cons_of_mem _ h')
      · exact Or.inr (Or.inl h')
      · exact Or.inr (Or.inr h')

/-- The normalizer applied to a text that is exactly one letter run:
collapse to dotted form with `ssml = false`. -/
theorem applyTextHacks_spaced_run (ls : List Char) (h2 : 2 ≤ ls.length)
    (hup : ∀ c ∈ ls, isUpperAZ c = true) :
    applyTextHacks (spaced ls) = (acroRepl ls, false) := by
  have ham : amFix (spaced ls) = spaced ls :=
    (pyReplace_spaced_noop 'a' (".m.".data) (" a.m. ".data) (by decide) ls hup).1
  have hpm : pmFix (spaced ls) = spaced ls :=
    (pyReplace_spaced_noop 'p' (".m.".data) (" p.m. ".data) (by decide) ls hup).1
  have hpre : preText (spaced ls) = acroRepl ls := by
    unfold preText
    rw [ham, hpm]
    exact acroScan_spaced ls h2 hup
  obtain ⟨c, t, hls⟩ : ∃ c t, ls = c :: t := by
    match ls, h2 with
    | c :: t, _ => exact ⟨c, t, rfl⟩
  have hcup : isUpperAZ c = true := hup c (by simp [hls])
  obtain ⟨u, hu⟩ := acroRepl_cons c t
  have h2c : ¬ twoCharCase (acroRepl ls) := by
    intro hc2
    have := acroRepl_getLast ls
    rw [hc2.2] at this
    exact absurd (Option.some.inj this) (by decide)
  have hssml : startsWithChar '<' (pyStrip (acroRepl ls)) = false := by
    rw [startsWith_pyStrip, hls, hu]
    obtain ⟨hsp, hlt⟩ := isUpperAZ_facts hcup
    rw [List.dropWhile_cons]
    simp [hsp, startsWithChar, hlt]
  have hnq : ∀ x ∈ acroRepl ls, (x == quoteChar) = false := by
    intro x hx
    rcases acroRepl_mem ls x hx with h | h | h
    · exact (beq_false_of_upper (hup x h) (by decide)).1
    · rw [h]; decide
    · rw [h]; decide
  have hsub := spellSub_no_quote (acroRepl ls) hnq
  simp only [applyTextHacks, hpre]
  rw [if_neg h2c]
  rw [hsub, hssml]
  simp

/-- The match attempt of the acronym regex at the current position:
word boundary `\b` (previous character not a word character), an
uppercase letter, and a greedy run of at least two repetitions. -/
def acroHit (pw : Bool) : List Char → Bool
  | [] => false
  | c :: rest => (!pw && isUpperAZ c) && decide (2 ≤ (acroRun (c :: rest)).1.length)

/-- The word-boundary state after scanning a list of characters:
whether the last character is a word character (`pw` for the empty
list). -/
def prevAfter (pw : Bool) : List Char → Bool
  | [] => pw
  | c :: rest => prevAfter (isWordChar c) rest

/-- One scanning step of `acroScanGo` at a position, phrased via
`acroHit`. -/
theorem acroScanGo_cons (pw : Bool) (c : Char) (rest : List Char) :
    acroScanGo 0 pw (c :: rest) =
      if acroHit pw (c :: rest) then
        acroRepl (acroRun (c :: rest)).1 ++
          acroScanGo (rest.length - (acroRun (c :: rest)).2.length) false rest
      else c :: acroScanGo 0 (isWordChar c) rest := rfl

/-- Walking the skip counter over the consumed text `a` resumes the scan
at `v` with the word-boundary state after `a`. -/
theorem acroScanGo_skip_append : ∀ (a : List Char) (pw : Bool) (v : List Char),
    acroScanGo a.length pw (a ++ v) = acroScanGo 0 (prevAfter pw a) v := by
  intro a
  induction a with
  | nil => intro pw v; rfl
  | cons c a' ih => intro pw v; exact ih (isWordChar c) v

/-- A prefix in which no match attempt succeeds is emitted unchanged and
the scan continues after it with the prefix's word-boundary state. -/
theorem acroScanGo_passthrough : ∀ (u : List Char) (pw : Bool) (s : List Char),
    (∀ i < u.length, acroHit (prevAfter pw (u.take i)) (u.drop i ++ s) = false) →
    acroScanGo 0 pw (u ++ s) = u ++ acroScanGo 0 (prevAfter pw u) s := by
  intro u
  induction u with
  | nil => intro pw s _; rfl
  | cons c u' ih =>
    intro pw s h
    have h0 : acroHit pw (c :: (u' ++ s)) = false := by
      simpa using h 0 (by simp)
    show acroScanGo 0 pw (c :: (u' ++ s)) = _
    rw [acroScanGo_cons, h0, if_neg Bool.false_ne_true]
    rw [ih (isWordChar c) s (fun i hi => by
      simpa [List.take_succ_cons, List.drop_succ_cons, prevAfter]
        using h (i + 1) (by simpa using hi))]
    rfl

theorem acroRun_fst_upper {c : Char} {rest : List Char}
    (h : (acroRun (c :: rest)).1 ≠ []) : isUpperAZ c = true := by
  by_cases hu : isUpperAZ c = true
  · exact hu
  · exfalso
    apply h
    match rest with
    | [] => simp [acroRun, hu]
    | d :: rest2 => simp [acroRun, hu]

/-- A failed run consumes nothing. -/
theorem acroRun_fst_nil : ∀ v : List Char, (acroRun v).1 = [] → (acroRun v).2 = v := by
  intro v h
  match v with
  | [] => rfl
  | [c] =>
    by_cases hu : isUpperAZ c = true
    · simp [acroRun, hu] at h
    · simp [acroRun, hu]
  | c :: d :: rest =>
    by_cases hu : isUpperAZ c = true
    · by_cases hd : d = ' '
      · simp [acroRun, hu, hd] at h
      · by_cases hend : d = '\n' ∧ rest = []
        · simp [acroRun, hu, hd, hend] at h
        · simp [acroRun, hu, hd, hend]
    · simp [acroRun, hu]

/-- A run of letters each followed by a space, where the following text
does not extend the run, is consumed exactly by the greedy matcher,
leaving the following text. -/
theorem acroRun_spaced_trailing : ∀ ls : List Char, ls ≠ [] →
    (∀ c ∈ ls, isUpperAZ c = true) → ∀ v : List Char, (acroRun v).1 = [] →
    acroRun (spaced ls ++ (' ' :: v)) = (ls, v) := by
  intro ls
  induction ls using spaced.induct with
  | case1 => intro h _; exact absurd rfl h
  | case2 c =>
    intro _ hup v hv
    have hc := hup c (by simp)
    have hv2 := acroRun_fst_nil v hv
    show acroRun (c :: ' ' :: v) = ([c], v)
    simp [acroRun, hc, hv, hv2]
  | case3 c rest hne ih =>
    intro _ hup v hv
    obtain ⟨d, tl, rfl⟩ : ∃ d tl, rest = d :: tl := by
      cases rest with
      | nil => exact (hne rfl).elim
      | cons d tl => exact ⟨d, tl, rfl⟩
    have hc := hup c (by simp)
    have hr : acroRun (spaced (d :: tl) ++ (' ' :: v)) = (d :: tl, v) :=
      ih (by simp) (fun x hx => hup x (List.mem_cons_of_mem _ hx)) v hv
    show acroRun (c :: ' ' :: (spaced (d :: tl) ++ (' ' :: v))) = _
    simp [acroRun, hc, hr]

/-- C7: the acronym rule collapses every run of two or more single
uppercase letters, each followed by a space or the end of the string,
into dotted form (the letters joined by periods plus a trailing period
and space), wherever the run occurs: if the text is a prefix `u` in
which no match attempt succeeds, followed at a word boundary by a greedy
run consuming `c :: m'` with letters `ls` (at least two) and leaving
`v`, the scan emits `u`, then the dotted replacement of `ls`, and
continues scanning `v` — so by iteration every run is collapsed.  A run
whose letters are each followed by a space and not extended by what
follows, and a run ending at the end of the string, are exactly such
greedy runs.  Through the whole normalizer: a pure run collapses with
`ssml = false`; `normalize("A I ")` gives `("A.I. ", false)` (trailing
space), `normalize("see A B now")` gives `("see A.B. now", false)` (run
embedded in longer text), and `normalize("A B") = ("A.B. ", false)`. -/
theorem applyTextHacks_acronym :
    (∀ (u m' v ls : List Char) (c : Char),
      (∀ i < u.length,
        acroHit (prevAfter false (u.take i)) (u.drop i ++ (c :: (m' ++ v))) = false) →
      prevAfter false u = false →
      acroRun (c :: (m' ++ v)) = (ls, v) →
      2 ≤ ls.length →
      acroScan (u ++ (c :: (m' ++ v))) =
        u ++ (acroRepl ls ++ acroScanGo 0 (prevAfter false m') v)) ∧
    (∀ ls : List Char, ls ≠ [] → (∀ c ∈ ls, isUpperAZ c = true) →
      acroRun (spaced ls) = (ls, []) ∧
      (∀ v : List Char, (acroRun v).1 = [] →
        acroRun (spaced ls ++ (' ' :: v)) = (ls, v))) ∧
    (∀ ls : List Char, 2 ≤ ls.length → (∀ c ∈ ls, isUpperAZ c = true) →
      applyTextHacks (spaced ls) = (acroRepl ls, false)) ∧
    applyTextHacks ("A I ".data) = ("A.I. ".data, false) ∧
    applyTextHacks ("see A B now".data) = ("see A.B. now".data, false) ∧
    applyTextHacks ("A B".data) = ("A.B. ".data, false) := by
  refine ⟨?_, ?_, applyTextHacks_spaced_run, by decide, by decide, by decide⟩
  · intro u m' v ls c h1 h2 h3 h4
    have hls : ls ≠ [] := by
      intro hnil
      rw [hnil] at h4
      simp at h4
    have hne : (acroRun (c :: (m' ++ v))).1 ≠ [] := by
      rw [h3]
      exact hls
    have hup : isUpperAZ c = true := acroRun_fst_upper hne
    have hhit : acroHit false (c :: (m' ++ v)) = true := by
      show ((!false && isUpperAZ c) &&
        decide (2 ≤ (acroRun (c :: (m' ++ v))).1.length)) = true
      rw [h3]
      simp [hup, h4]
    show acroScanGo 0 false (u ++ (c :: (m' ++ v))) = _
    rw [acroScanGo_passthrough u false (c :: (m' ++ v)) h1, h2]
    rw [acroScanGo_cons, hhit, if_pos rfl, h3]
    have hskip : (m' ++ v).length - v.length = m'.length := by
      simp
    rw [hskip, acroScanGo_skip_append m' false v]
  · intro ls hne hup
    exact ⟨acroRun_spaced ls hne hup, acroRun_spaced_trailing ls hne hup⟩

theorem applyTextHacks_acronym_witness :
    ((∀ i < ("see ".data : LC).length,
        acroHit (prevAfter false (("see ".data : LC).take i))
          (("see ".data : LC).drop i ++ ('A' :: (" B ".data ++ "now".data))) = false) ∧
      prevAfter false ("see ".data) = false ∧
      acroRun ('A' :: (" B ".data ++ "now".data)) = (['A', 'B'], "now".data) ∧
      2 ≤ (['A', 'B'] : List Char).length) ∧
    acroScan ("see ".data ++ ('A' :: (" B ".data ++ "now".data))) =
      "see ".data ++
        (acroRepl ['A', 'B'] ++ acroScanGo 0 (prevAfter false (" B ".data)) "now".data) :=
  ⟨⟨by decide, by decide, by decide, by decide⟩,
   applyTextHacks_acronym.1 ("see ".data) (" B ".data) ("now".data) ['A', 'B'] 'A'
     (by decide) (by decide) (by decide) (by decide)⟩

/-! ### Claim C9: serialization of `get_tts` under the instance lock -/

/-- Thread `t` is midway through its critical section: past its `acq`,
not yet past its `rel`. -/
def midCrit (n : Nat) (c : Conf) (t : Tid) : Prop :=
  1 ≤ c.pc t ∧ c.pc t ≤ n + 1

/-- Lock invariant: a thread midway through its critical section owns
the lock. -/
def lockInv (n : Nat) (c : Conf) : Prop :=
  ∀ t : Tid, midCrit n c t → c.lock = some t

theorem lockInv_init (n : Nat) : lockInv n confInit := by
  intro t h
  exact absurd h.1 (by simp [confInit])

theorem updPc_same (f : Tid → Nat) (t : Tid) (v : Nat) : updPc f t v t = v := by
  simp [updPc]

theorem updPc_other {u t : Tid} (f : Tid → Nat) (v : Nat) (h : u ≠ t) :
    updPc f t v u = f u := by
  simp [updPc, h]

theorem lockInv_step {n : Nat} {c c' : Conf} {e : Tid × Act}
    (hstep : LockStep n c e c') (hinv : lockInv n c) : lockInv n c' := by
  cases hstep with
  | @acq t hl hpc =>
    intro u hu
    by_cases hut : u = t
    · simp [hut]
    · simp only [midCrit, updPc, hut, if_false] at hu
      have hlock := hinv u ⟨hu.1, hu.2⟩
      rw [hl] at hlock
      exact absurd hlock (by simp)
  | @crit t h1 h2 =>
    intro u hu
    by_cases hut : u = t
    · subst hut
      exact hinv u ⟨h1, Nat.le_succ_of_le h2⟩
    · simp only [midCrit, updPc, hut, if_false] at hu
      exact hinv u ⟨hu.1, hu.2⟩
  | @rel t hpc =>
    intro u hu
    by_cases hut : u = t
    · subst hut
      simp only [midCrit, updPc, eq_self_iff_true, if_true] at hu
      exact absurd hu.2 (by omega)
    · simp only [midCrit, updPc, hut, if_false] at hu
      have hl1 := hinv u ⟨hu.1, hu.2⟩
      have hl2 := hinv t ⟨by omega, by omega⟩
      rw [hl1] at hl2
      exact absurd (Option.some.inj hl2) hut

theorem lockInv_trace {n : Nat} : ∀ {c c' : Conf} {l : List (Tid × Act)},
    LockTrace n c l c' → lockInv n c → lockInv n c' := by
  intro c c' l htr
  induction htr with
  | nil => exact id
  | cons hstep _ ih => intro hinv; exact ih (lockInv_step hstep hinv)

theorem lockTrace_append {n : Nat} : ∀ {l1 l2 : List (Tid × Act)} {c c'' : Conf},
    LockTrace n c (l1 ++ l2) c'' →
    ∃ cm, LockTrace n c l1 cm ∧ LockTrace n cm l2 c'' := by
  intro l1
  induction l1 with
  | nil => intro l2 c c'' h; exact ⟨c, .nil, h⟩
  | cons e l1' ih =>
    intro l2 c c'' h
    cases h with
    | cons hstep htr =>
      obtain ⟨cm, h1, h2⟩ := ih htr
      exact ⟨cm, .cons hstep h1, h2⟩

theorem midCrit_persist {n : Nat} {t : Tid} : ∀ {l : List (Tid × Act)} {c c' : Conf},
    LockTrace n c l c' → (t, Act.rel) ∉ l → midCrit n c t → midCrit n c' t := by
  intro l
  induction l with
  | nil =>
    intro c c' h _ hm
    cases h
    exact hm
  | cons e l' ih =>
    intro c c' h hnotin hm
    cases h with
    | cons hstep htr =>
      refine ih htr (fun hmem => hnotin (List.mem_cons_of_mem _ hmem)) ?_
      cases hstep with
      | @acq s hl hpc =>
        by_cases hst : t = s
        · subst hst
          have h1 := hm.1
          rw [hpc] at h1
          exact absurd h1 (by omega)
        · simp only [midCrit, updPc, hst, if_false]
          exact hm
      | @crit s h1 h2 =>
        by_cases hst : t = s
        · subst hst
          simp only [midCrit, updPc, eq_self_iff_true, if_true]
          exact ⟨by omega, by omega⟩
        · simp only [midCrit, updPc, hst, if_false]
          exact hm
      | @rel s hpc =>
        by_cases hst : t = s
        · subst hst
          exact absurd (List.mem_cons_self _ _) hnotin
        · simp only [midCrit, updPc, hst, if_false]
          exact hm

/-- C9: the whole per-request body of `get_tts` runs inside
`with self.lock:`, so two concurrent calls on one instance never
interleave their critical sections: in every trace from the initial
configuration, a critical action of thread `u` occurring after thread
`t`'s acquire and before `t`'s matching release belongs to `t` itself
(`u = t`) — for any length `n` of the critical section (snapshot,
voice/speaker swap, normalize, render, restore). -/
theorem getTts_serialized (n : Nat) (l1 l2 l3 : List (Tid × Act)) (t u : Tid)
    (c : Conf)
    (htr : LockTrace n confInit (l1 ++ (t, Act.acq) :: l2 ++ (u, Act.crit) :: l3) c)
    (hrel : (t, Act.rel) ∉ l2) : u = t := by
  obtain ⟨cm, hA, hB⟩ := lockTrace_append htr
  obtain ⟨c1, h1, h2⟩ := lockTrace_append hA
  cases hB with
  | cons hcrit _ =>
    cases h2 with
    | cons hacq h3 =>
      cases hacq with
      | acq hl hpc =>
        have hmid2 : midCrit n ⟨some t, updPc c1.pc t 1⟩ t := by
          simp only [midCrit, updPc, eq_self_iff_true, if_true]
          omega
        have hmidm : midCrit n cm t := midCrit_persist h3 hrel hmid2
        have hinvm : lockInv n cm :=
          lockInv_trace h3
            (lockInv_step (LockStep.acq hl hpc) (lockInv_trace h1 (lockInv_init n)))
        have hlt : cm.lock = some t := hinvm t hmidm
        cases hcrit with
        | crit hc1 hc2 =>
          have hmu : midCrit n cm u := ⟨hc1, Nat.le_succ_of_le hc2⟩
          have hlu := hinvm u hmu
          rw [hlt] at hlu
          exact (Option.some.inj hlu).symm

theorem getTts_serialized_witness : (true : Tid) = true :=
  getTts_serialized 1 [] [] [] true true
    ⟨some true, updPc (updPc confInit.pc true 1) true 2⟩
    (LockTrace.cons (LockStep.acq rfl rfl)
      (LockTrace.cons (LockStep.crit (by decide) (by decide)) LockTrace.nil))
    (by simp)

end Mimic3
